import Mathlib

/-!
Verification of the tablet_publisher frame delivery simulator
(`src/decision_model_pickdrop/tools/tablet_publisher/tablet_publisher.py`).

The Python program is embedded shallowly:

* byte sequences are `List ℕ`;
* Python `int` values that may be non-positive (chunk counts, sequence
  numbers, `sock.send` return values) are `ℤ`, lengths and offsets are `ℕ`;
* the transport is an oracle `so : ℕ → ℤ` giving the number of bytes the
  socket reports as accepted on the k-th `sock.send` call of the delivery;
* the random sources (`random.randint` for the chunk count and the
  truncation amount, `random.uniform` for the jitter) are injected as
  explicit parameters, constrained in the theorems to the ranges the
  library guarantees;
* raised exceptions become `Except` errors carrying the list of I/O events
  (chunk writes and jitter sleeps) that happened before the exception.
-/

namespace TabletPublisher

/-- Error taxonomy of the publisher: `ValueError` on bad chunk configuration
(`InvalidArgument` in the design document), `RuntimeError` raised by
`send_all` when a hand-off makes no progress (`TransportError`),
`ZeroDivisionError` from `length // chunk_count` when the capped chunk count
is zero, and `KeyError` from `CASE_NAME_BY_KEY[case_key]` on an unknown key. -/
inductive PubError
  | invalidArgument
  | transportError
  | zeroDivision
  | keyError
deriving DecidableEq, Repr

/-- Observable I/O events of one delivery: a chunk handed to `send_all`
(recorded with the bytes actually transmitted) and a jitter sleep
(recorded with the drawn duration in seconds). -/
inductive Ev
  | write (chunk : List ℕ)
  | sleep (d : ℚ)
deriving DecidableEq, Repr

/-- The chunk payloads of an event trace, in order. -/
def writesOf : List Ev → List (List ℕ)
  | [] => []
  | Ev.write c :: rest => c :: writesOf rest
  | Ev.sleep _ :: rest => writesOf rest

/-- The sleep durations of an event trace, in order. -/
def sleepsOf : List Ev → List ℚ
  | [] => []
  | Ev.write _ :: rest => sleepsOf rest
  | Ev.sleep d :: rest => d :: sleepsOf rest

/-- The `while total < len(data)` loop of `send_all` (lines 46-52).
`so` is the per-call socket oracle, `k` the index of the next `sock.send`
call, `total` the running counter of the Python loop, `written` the number
of payload bytes actually transmitted so far (`data[total:]` truncates at
the end of the buffer, so a call moves `min(sent, L - total)` real bytes),
`L` the payload length.  On `sent <= 0` the Python code raises
`RuntimeError`; here this is `.error (k, written)` recording the failing
call index and the bytes transmitted before the failure.  The loop adds at
least one to `total` per iteration, so `L - total` iterations always
suffice; `fuel` is that structural bound, and when it reaches zero the
loop guard `total < L` has already failed. -/
def sendAllGo (so : ℕ → ℤ) : ℕ → ℕ → ℕ → ℕ → ℕ → Except (ℕ × ℕ) (ℕ × ℕ)
  | 0, k, _, written, _ => .ok (k, written)
  | fuel + 1, k, total, written, L =>
    if total < L then
      if so k ≤ 0 then .error (k, written)
      else sendAllGo so fuel (k + 1) (total + (so k).toNat)
            (written + min (so k).toNat (L - total)) L
    else .ok (k, written)

/-- `send_all(sock, data)` (lines 46-52), at the level of byte counts:
starts the loop with the sufficient fuel `L - total`. -/
def send_all (so : ℕ → ℤ) (k total written L : ℕ) : Except (ℕ × ℕ) (ℕ × ℕ) :=
  sendAllGo so (L - total) k total written L

/-- The `for i in range(chunk_count)` loop of `split_into_n_chunks`
(lines 71-74): `n` is the number of remaining iterations (`cc - i`),
`i` the loop index and `offset` the running offset. -/
def splitGo (data : List ℕ) (b r : ℕ) : ℕ → ℕ → ℕ → List (List ℕ)
  | 0, _, _ => []
  | n + 1, i, offset =>
    (data.drop offset).take (b + if i < r then 1 else 0) ::
      splitGo data b r n (i + 1) (offset + (b + if i < r then 1 else 0))

/-- `split_into_n_chunks(data, chunk_count)` (lines 55-75).  A requested
count `<= 1` returns the whole input as one slice; an empty input returns a
single empty slice; otherwise the count is capped at the length and the
first `length % count` slices get one extra byte. -/
def split_into_n_chunks (data : List ℕ) (chunk_count : ℤ) : List (List ℕ) :=
  if chunk_count ≤ 1 then [data]
  else if data.length = 0 then [[]]
  else
    let cc := min chunk_count.toNat data.length
    splitGo data (data.length / cc) (data.length % cc) cc 0 0

/-- Sum of the slice sizes produced by `n` iterations of the splitting loop
starting at index `i`: size of slice `j` is `b + (1 if j < r else 0)`. -/
def sizesSumGo (b r : ℕ) : ℕ → ℕ → ℕ
  | 0, _ => 0
  | n + 1, i => (b + if i < r then 1 else 0) + sizesSumGo b r n (i + 1)

/-- The event trace the `send_chunked` loop emits for a given chunk plan:
each chunk is written, and a jitter sleep (with the drawn duration `jr i`)
follows chunk `i` exactly when the bound is positive and `i` is not the
last index (`i != chunk_count - 1`, line 104). -/
def evTrace (jr : ℕ → ℚ) (jit : ℤ) (cc : ℕ) : ℕ → List (List ℕ) → List Ev
  | _, [] => []
  | i, c :: rest =>
    Ev.write c ::
      ((if 0 < jit ∧ i ≠ cc - 1 then [Ev.sleep (jr i)] else []) ++
        evTrace jr jit cc (i + 1) rest)

/-- The `for i in range(chunk_count)` loop of `send_chunked` (lines
98-105): slice the next chunk, `send_all` it (threading the socket-call
index `k`), then optionally sleep.  `n` is the number of remaining
iterations, `cc` the realized chunk count (needed for the
`i != chunk_count - 1` test).  An error from `send_all` aborts the loop,
recording the partial bytes of the failing chunk; the events written
before the failure are kept in the error value. -/
def chunkLoop (so : ℕ → ℤ) (jr : ℕ → ℚ) (data : List ℕ) (b r cc : ℕ)
    (jit : ℤ) : ℕ → ℕ → ℕ → ℕ → Except (PubError × List Ev) (List Ev)
  | 0, _, _, _ => .ok []
  | n + 1, i, k, offset =>
    let chunk := (data.drop offset).take (b + if i < r then 1 else 0)
    match send_all so k 0 0 chunk.length with
    | .error e => .error (.transportError, [Ev.write (chunk.take e.2)])
    | .ok res =>
      let here := Ev.write chunk ::
        (if 0 < jit ∧ i ≠ cc - 1 then [Ev.sleep (jr i)] else [])
      match chunkLoop so jr data b r cc jit n (i + 1) res.1
          (offset + (b + if i < r then 1 else 0)) with
      | .error e => .error (e.1, here ++ e.2)
      | .ok evs => .ok (here ++ evs)

/-- `send_chunked(sock, data, min_chunk, max_chunk, jitter_ms)` (lines
77-107).  `cc_drawn` is the value `random.randint(min_chunk, max_chunk)`
returned (a parameter here; theorems constrain it to the interval).
Validation happens first; the drawn count is capped at the length; a
capped count of zero makes `length // chunk_count` raise
`ZeroDivisionError`.  On success the realized chunk count and the event
trace are returned. -/
def send_chunked (so : ℕ → ℤ) (jr : ℕ → ℚ) (cc_drawn : ℤ) (data : List ℕ)
    (min_chunk max_chunk jitter_ms : ℤ) :
    Except (PubError × List Ev) (ℤ × List Ev) :=
  if min_chunk ≤ 0 then .error (.invalidArgument, [])
  else if max_chunk < min_chunk then .error (.invalidArgument, [])
  else
    let cc : ℤ := if (data.length : ℤ) < cc_drawn then data.length else cc_drawn
    if cc = 0 then .error (.zeroDivision, [])
    else
      match chunkLoop so jr data (data.length / cc.toNat)
          (data.length % cc.toNat) cc.toNat jitter_ms cc.toNat 0 0 0 with
      | .error e => .error e
      | .ok evs => .ok (cc, evs)

/-- `send_case_once` (lines 126-175).  `enc seq res` stands for
`encode_message_bytes(seq_no, res, delimiter)` — the encoder is an
injected collaborator whose output bytes are opaque here; `cut_rand` is
the value `random.randint(1, 12)` drawn in the incomplete case; `cc_drawn`
the chunk count drawn inside `send_chunked`.  Returns the next sequence
number and the event trace.  An unknown key raises `KeyError` at
`CASE_NAME_BY_KEY[case_key]` (line 136). -/
def send_case_once (enc : ℤ → ℤ → List ℕ) (so : ℕ → ℤ) (jr : ℕ → ℚ)
    (cut_rand : ℕ) (cc_drawn : ℤ) (case_key : String) (seq_no res : ℤ)
    (min_chunk max_chunk jitter_ms : ℤ) :
    Except (PubError × List Ev) (ℤ × List Ev) :=
  if case_key = "1" then
    let payload := enc seq_no res
    match send_all so 0 0 0 payload.length with
    | .error e => .error (.transportError, [Ev.write (payload.take e.2)])
    | .ok _ => .ok (seq_no + 1, [Ev.write payload])
  else if case_key = "2" then
    match send_chunked so jr cc_drawn (enc seq_no res)
        min_chunk max_chunk jitter_ms with
    | .error e => .error e
    | .ok res2 => .ok (seq_no + 1, res2.2)
  else if case_key = "3" then
    let payload_full := enc seq_no res
    let payload := payload_full.take (max 1 (payload_full.length - cut_rand))
    match send_all so 0 0 0 payload.length with
    | .error e => .error (.transportError, [Ev.write (payload.take e.2)])
    | .ok _ => .ok (seq_no + 1, [Ev.write payload])
  else if case_key = "4" then
    let payload := enc seq_no res ++ enc (seq_no + 1) res
    match send_all so 0 0 0 payload.length with
    | .error e => .error (.transportError, [Ev.write (payload.take e.2)])
    | .ok _ => .ok (seq_no + 2, [Ev.write payload])
  else .error (.keyError, [])

/-! ### Loop invariants of `send_all` -/

/-- If all socket responses are positive, the `send_all` loop finishes,
having transmitted exactly the whole buffer.  Invariant: `written` equals
`min total L` and `L - total` never exceeds the remaining fuel. -/
theorem sendAllGo_ok_pos (so : ℕ → ℤ) (hpos : ∀ j, 0 < so j) :
    ∀ fuel k total written L, L ≤ total + fuel → written = min total L →
      ∃ k', sendAllGo so fuel k total written L = .ok (k', L) := by
  intro fuel
  induction fuel with
  | zero =>
    intro k total written L hL hw
    refine ⟨k, ?_⟩
    have hwL : written = L := by omega
    rw [hwL]
    rfl
  | succ fuel ih =>
    intro k total written L hL hw
    by_cases h : total < L
    · have hk := hpos k
      have hne : ¬ so k ≤ 0 := by omega
      have ht : 0 < (so k).toNat := by omega
      obtain ⟨k', hk'⟩ := ih (k + 1) (total + (so k).toNat)
        (written + min (so k).toNat (L - total)) L (by omega) (by omega)
      refine ⟨k', ?_⟩
      simp only [sendAllGo]
      rw [if_pos h, if_neg hne]
      exact hk'
    · refine ⟨k, ?_⟩
      have hwL : written = L := by omega
      simp only [sendAllGo]
      rw [if_neg h, hwL]

/-- A `send_all` failure happens exactly at a call whose reported count is
non-positive, and strictly before the buffer is fully transmitted. -/
theorem sendAllGo_error (so : ℕ → ℤ) :
    ∀ fuel k total written L kf w, written = min total L →
      sendAllGo so fuel k total written L = .error (kf, w) →
      so kf ≤ 0 ∧ w < L := by
  intro fuel
  induction fuel with
  | zero =>
    intro k total written L kf w hw h
    exact absurd h (by simp [sendAllGo])
  | succ fuel ih =>
    intro k total written L kf w hw h
    simp only [sendAllGo] at h
    by_cases ht : total < L
    · rw [if_pos ht] at h
      by_cases hs : so k ≤ 0
      · rw [if_pos hs] at h
        simp only [Except.error.injEq, Prod.mk.injEq] at h
        obtain ⟨hk, hww⟩ := h
        subst hk; subst hww
        exact ⟨hs, by omega⟩
      · rw [if_neg hs] at h
        exact ih _ _ _ _ _ _ (by omega) h
    · rw [if_neg ht] at h
      exact absurd h (by simp)

/-- A whole-buffer `send_all` call succeeds under a permanently productive
transport, writing exactly `L` bytes. -/
theorem send_all_ok_pos (so : ℕ → ℤ) (hpos : ∀ j, 0 < so j) (k L : ℕ) :
    ∃ k', send_all so k 0 0 L = .ok (k', L) :=
  sendAllGo_ok_pos so hpos (L - 0) k 0 0 L (by omega) (by simp)

/-- A whole-buffer `send_all` call fails only on a non-positive hand-off,
and then fewer than `L` bytes were transmitted. -/
theorem send_all_error_facts (so : ℕ → ℤ) (k L kf w : ℕ)
    (h : send_all so k 0 0 L = .error (kf, w)) : so kf ≤ 0 ∧ w < L :=
  sendAllGo_error so (L - 0) k 0 0 L kf w (by simp) h

/-! ### The splitting loop -/

/-- The splitting loop emits one slice per iteration. -/
theorem splitGo_length (data : List ℕ) (b r : ℕ) :
    ∀ n i offset, (splitGo data b r n i offset).length = n := by
  intro n
  induction n with
  | zero => intro i offset; rfl
  | succ n ih => intro i offset; simp [splitGo, ih]

/-- Concatenating the slices of the splitting loop gives back the
contiguous region of the input they cover. -/
theorem splitGo_flatten (data : List ℕ) (b r : ℕ) :
    ∀ n i offset, (splitGo data b r n i offset).flatten =
      (data.drop offset).take (sizesSumGo b r n i) := by
  intro n
  induction n with
  | zero => intro i offset; rfl
  | succ n ih =>
    intro i offset
    simp only [splitGo, sizesSumGo, List.flatten_cons]
    conv_rhs => rw [List.take_add]
    rw [ih, List.drop_drop]

/-- Closed form of the slice-size sum. -/
theorem sizesSumGo_eq (b r : ℕ) :
    ∀ n i, sizesSumGo b r n i = b * n + (min r (i + n) - min r i) := by
  intro n
  induction n with
  | zero => intro i; simp [sizesSumGo]
  | succ n ih =>
    intro i
    simp only [sizesSumGo]
    rw [ih (i + 1), Nat.mul_succ]
    generalize b * n = m
    split_ifs <;> omega

/-- With `b = L / cc` and `r = L % cc` the slice sizes sum to `L`. -/
theorem sizesSumGo_div_mod (L cc : ℕ) (h : 0 < cc) :
    sizesSumGo (L / cc) (L % cc) cc 0 = L := by
  rw [sizesSumGo_eq]
  simp only [Nat.zero_add, Nat.min_zero, Nat.sub_zero]
  rw [Nat.min_eq_left (Nat.le_of_lt (Nat.mod_lt _ h))]
  rw [Nat.mul_comm]
  exact Nat.div_add_mod L cc

/-- The slice lengths of the splitting loop: when the remaining sizes fit
inside the input, slice `j` has exactly `b + (1 if j < r else 0)` bytes. -/
theorem splitGo_map_length (data : List ℕ) (b r : ℕ) :
    ∀ n i offset, offset + sizesSumGo b r n i ≤ data.length →
      (splitGo data b r n i offset).map List.length =
        (List.range' i n).map (fun j => b + if j < r then 1 else 0) := by
  intro n
  induction n with
  | zero => intro i offset h; rfl
  | succ n ih =>
    intro i offset h
    simp only [sizesSumGo] at h
    by_cases hir : i < r
    · simp only [splitGo, List.map_cons, List.range'_succ, hir, if_true] at h ⊢
      rw [ih (i + 1) (offset + (b + 1)) (by omega)]
      congr 1
      rw [List.length_take, List.length_drop]
      omega
    · simp only [splitGo, List.map_cons, List.range'_succ, hir, if_false] at h ⊢
      rw [ih (i + 1) (offset + (b + 0)) (by omega)]
      congr 1
      rw [List.length_take, List.length_drop]
      omega

/-! ### Event traces -/

theorem writesOf_append :
    ∀ l1 l2 : List Ev, writesOf (l1 ++ l2) = writesOf l1 ++ writesOf l2 := by
  intro l1 l2
  induction l1 with
  | nil => rfl
  | cons e rest ih => cases e <;> simp [writesOf, ih]

theorem sleepsOf_append :
    ∀ l1 l2 : List Ev, sleepsOf (l1 ++ l2) = sleepsOf l1 ++ sleepsOf l2 := by
  intro l1 l2
  induction l1 with
  | nil => rfl
  | cons e rest ih => cases e <;> simp [sleepsOf, ih]

/-- The chunks written along an `evTrace` are exactly the given plan. -/
theorem writesOf_evTrace (jr : ℕ → ℚ) (jit : ℤ) (cc : ℕ) :
    ∀ chunks i, writesOf (evTrace jr jit cc i chunks) = chunks := by
  intro chunks
  induction chunks with
  | nil => intro i; rfl
  | cons c rest ih =>
    intro i
    simp only [evTrace, writesOf, writesOf_append]
    split_ifs <;> simp [writesOf, ih]

/-- The sleeps along an `evTrace` of a plan of `cc - i` chunks: none when
the bound is not positive, otherwise one per non-final chunk, with the
drawn durations `jr i, …, jr (cc - 2)` in order. -/
theorem sleepsOf_evTrace (jr : ℕ → ℚ) (jit : ℤ) (cc : ℕ) :
    ∀ chunks i, i + chunks.length = cc →
      sleepsOf (evTrace jr jit cc i chunks) =
        if 0 < jit then (List.range' i (chunks.length - 1)).map jr else [] := by
  intro chunks
  induction chunks with
  | nil => intro i h; simp [evTrace, sleepsOf]
  | cons c rest ih =>
    intro i h
    simp only [List.length_cons] at h
    simp only [evTrace, sleepsOf, sleepsOf_append]
    by_cases hj : 0 < jit
    · by_cases hlast : i = cc - 1
      · have hr : rest = [] := by
          apply List.eq_nil_of_length_eq_zero
          omega
        subst hr
        simp [hj, hlast, sleepsOf]
      · have hlen : 0 < rest.length := by
          rcases Nat.eq_zero_or_pos rest.length with h0 | h0
          · exact absurd (by omega : i = cc - 1) hlast
          · exact h0
        rw [ih (i + 1) (by omega)]
        obtain ⟨m, hm⟩ : ∃ m, rest.length = m + 1 :=
          ⟨rest.length - 1, by omega⟩
        simp only [hj, hlast, if_pos, and_true, not_false_iff, sleepsOf,
          List.length_cons, hm]
        simp only [Nat.add_sub_cancel, Nat.succ_sub_one]
        rw [List.range'_succ]
        simp [hlast, sleepsOf]
    · have hcond : ¬ (0 < jit ∧ i ≠ cc - 1) := by
        intro hc; exact hj hc.1
      rw [ih (i + 1) (by omega)]
      simp [hj, hcond, sleepsOf]

/-- A nonempty `evTrace` whose plan reaches the final index ends with a
chunk write: no sleep follows the final chunk. -/
theorem evTrace_ends_write (jr : ℕ → ℚ) (jit : ℤ) (cc : ℕ) :
    ∀ chunks i, i + chunks.length = cc → chunks ≠ [] →
      ∃ l c, evTrace jr jit cc i chunks = l ++ [Ev.write c] := by
  intro chunks
  induction chunks with
  | nil => intro i h hne; exact absurd rfl hne
  | cons c rest ih =>
    intro i h hne
    simp only [List.length_cons] at h
    by_cases hr : rest = []
    · subst hr
      have hi : i = cc - 1 := by simp at h; omega
      refine ⟨[], c, ?_⟩
      simp [evTrace, hi]
    · obtain ⟨l, c', hl⟩ := ih (i + 1) (by omega) hr
      refine ⟨Ev.write c ::
        ((if 0 < jit ∧ i ≠ cc - 1 then [Ev.sleep (jr i)] else []) ++ l), c', ?_⟩
      simp [evTrace, hl]

/-! ### The chunk-writing loop of `send_chunked` -/

/-- Under a permanently productive transport the chunk loop succeeds and
its events are exactly the `evTrace` of the chunk plan `splitGo` yields:
every chunk is written in full, in order, with the jitter sleeps
interleaved. -/
theorem chunkLoop_ok (so : ℕ → ℤ) (jr : ℕ → ℚ) (data : List ℕ)
    (b r cc : ℕ) (jit : ℤ) (hpos : ∀ j, 0 < so j) :
    ∀ n i k offset, chunkLoop so jr data b r cc jit n i k offset =
      .ok (evTrace jr jit cc i (splitGo data b r n i offset)) := by
  intro n
  induction n with
  | zero => intro i k offset; rfl
  | succ n ih =>
    intro i k offset
    obtain ⟨k', hk'⟩ := send_all_ok_pos so hpos k
      ((data.drop offset).take (b + if i < r then 1 else 0)).length
    simp only [chunkLoop]
    rw [hk']
    simp only [ih (i + 1) k' (offset + (b + if i < r then 1 else 0))]
    simp [splitGo, evTrace]

/-- Error analysis of the chunk loop: a failure is always a transport
error; the written chunks are the full chunks of the plan strictly before
the failing one, followed by a strict prefix of the failing chunk; the
chunks after the failing one (`rest`) produce no events at all. -/
theorem chunkLoop_error_struct (so : ℕ → ℤ) (jr : ℕ → ℚ) (data : List ℕ)
    (b r cc : ℕ) (jit : ℤ) :
    ∀ n i k offset e evs,
      chunkLoop so jr data b r cc jit n i k offset = .error (e, evs) →
      e = PubError.transportError ∧
      ∃ pre full rest w, splitGo data b r n i offset = pre ++ full :: rest ∧
        writesOf evs = pre ++ [full.take w] ∧ w < full.length := by
  intro n
  induction n with
  | zero =>
    intro i k offset e evs h
    exact absurd h (by simp [chunkLoop])
  | succ n ih =>
    intro i k offset e evs h
    simp only [chunkLoop] at h
    cases hsa : send_all so k 0 0
        ((data.drop offset).take (b + if i < r then 1 else 0)).length with
    | error e2 =>
      rw [hsa] at h
      simp only [Except.error.injEq, Prod.mk.injEq] at h
      obtain ⟨he, hevs⟩ := h
      subst he; subst hevs
      obtain ⟨hle, hlt⟩ := send_all_error_facts so k _ e2.1 e2.2
        (by rw [hsa])
      refine ⟨rfl, [], (data.drop offset).take (b + if i < r then 1 else 0),
        splitGo data b r n (i + 1) (offset + (b + if i < r then 1 else 0)),
        e2.2, by simp [splitGo], by simp [writesOf], hlt⟩
    | ok res =>
      simp only [hsa] at h
      cases hcl : chunkLoop so jr data b r cc jit n (i + 1) res.1
          (offset + (b + if i < r then 1 else 0)) with
      | error e3 =>
        simp only [hcl] at h
        simp only [Except.error.injEq, Prod.mk.injEq] at h
        obtain ⟨he, hevs⟩ := h
        subst he; subst hevs
        obtain ⟨htr, pre, full, rest, w, hplan, hwr, hw⟩ :=
          ih (i + 1) res.1 (offset + (b + if i < r then 1 else 0)) e3.1 e3.2 hcl
        refine ⟨htr, (data.drop offset).take (b + if i < r then 1 else 0) :: pre,
          full, rest, w, ?_, ?_, hw⟩
        · simp [splitGo, hplan]
        · simp only [writesOf_append, writesOf]
          split_ifs <;> simp [writesOf, hwr]
      | ok evs2 =>
        simp only [hcl] at h
        exact absurd h (by simp)

/-- For a valid request (`N ≥ 1`) on a non-empty input, both branches of
`split_into_n_chunks` produce the splitting loop's plan for the effective
count `min N length`. -/
theorem split_eq_splitGo (data : List ℕ) (N : ℤ) (hN : 1 ≤ N)
    (hdata : data ≠ []) :
    split_into_n_chunks data N =
      splitGo data (data.length / min N.toNat data.length)
        (data.length % min N.toNat data.length) (min N.toNat data.length) 0 0 := by
  have hL : 0 < data.length := List.length_pos.mpr hdata
  by_cases h1 : N ≤ 1
  · have hN1 : N = 1 := le_antisymm h1 hN
    subst hN1
    have he : min (Int.toNat 1) data.length = 1 := by
      simp only [Int.toNat_one]
      omega
    rw [he]
    simp [split_into_n_chunks, splitGo, Nat.div_one, Nat.mod_one, hL,
      List.take_length]
  · have h2 : ¬ data.length = 0 := by omega
    simp [split_into_n_chunks, h1, h2]

/-- C1: for every non-empty byte sequence and every requested count
`N ≥ 1`, `split_into_n_chunks` returns exactly `min N L` slices; their
in-order concatenation is the input; no slice is empty; any two slice
lengths differ by at most one byte; and the slice lengths are
`L / min N L` plus one extra byte for exactly the first `L mod min N L`
slices, in order. -/
theorem split_into_n_chunks_spec (data : List ℕ) (N : ℤ)
    (hN : 1 ≤ N) (hdata : data ≠ []) :
    (split_into_n_chunks data N).length = min N.toNat data.length ∧
    (split_into_n_chunks data N).flatten = data ∧
    (∀ c ∈ split_into_n_chunks data N, c ≠ []) ∧
    (∀ c1 ∈ split_into_n_chunks data N, ∀ c2 ∈ split_into_n_chunks data N,
      c1.length ≤ c2.length + 1) ∧
    (split_into_n_chunks data N).map List.length =
      (List.range (min N.toNat data.length)).map
        (fun i => data.length / min N.toNat data.length +
          if i < data.length % min N.toNat data.length then 1 else 0) := by
  have hL : 0 < data.length := List.length_pos.mpr hdata
  have he : 0 < min N.toNat data.length := by
    have hNt : 0 < N.toNat := by omega
    omega
  have heL : min N.toNat data.length ≤ data.length := Nat.min_le_right _ _
  have hsum : sizesSumGo (data.length / min N.toNat data.length)
      (data.length % min N.toNat data.length) (min N.toNat data.length) 0 =
      data.length := sizesSumGo_div_mod data.length _ he
  have hfit : 0 + sizesSumGo (data.length / min N.toNat data.length)
      (data.length % min N.toNat data.length) (min N.toNat data.length) 0 ≤
      data.length := by omega
  have hmap := splitGo_map_length data
    (data.length / min N.toNat data.length)
    (data.length % min N.toNat data.length) (min N.toNat data.length) 0 0 hfit
  have hb : 1 ≤ data.length / min N.toNat data.length :=
    (Nat.one_le_div_iff he).mpr heL
  have hmem : ∀ c ∈ splitGo data (data.length / min N.toNat data.length)
      (data.length % min N.toNat data.length) (min N.toNat data.length) 0 0,
      ∃ j, c.length = data.length / min N.toNat data.length +
        if j < data.length % min N.toNat data.length then 1 else 0 := by
    intro c hc
    have hcl : c.length ∈ (splitGo data (data.length / min N.toNat data.length)
        (data.length % min N.toNat data.length)
        (min N.toNat data.length) 0 0).map List.length :=
      List.mem_map_of_mem _ hc
    rw [hmap] at hcl
    obtain ⟨j, _, hfj⟩ := List.mem_map.mp hcl
    exact ⟨j, hfj.symm⟩
  rw [split_eq_splitGo data N hN hdata]
  refine ⟨splitGo_length data _ _ _ 0 0, ?_, ?_, ?_, ?_⟩
  · rw [splitGo_flatten, hsum]
    simp [List.take_length]
  · intro c hc
    obtain ⟨j, hj⟩ := hmem c hc
    have : 0 < c.length := by rw [hj]; omega
    exact List.length_pos.mp this
  · intro c1 hc1 c2 hc2
    obtain ⟨j1, hj1⟩ := hmem c1 hc1
    obtain ⟨j2, hj2⟩ := hmem c2 hc2
    rw [hj1, hj2]
    split_ifs <;> omega
  · rw [hmap, List.range_eq_range']

/-- C2 counterexample: for a non-positive requested count the code does
not fail — `split_into_n_chunks` takes its `chunk_count <= 1` early
return (line 56) and hands back the whole input as a single slice, so no
`InvalidArgument` error is possible on this path. -/
theorem split_nonpositive_count_counterexample :
    split_into_n_chunks [1, 2, 3] (-3) = [[1, 2, 3]] := rfl

/-- C2 amended: for every requested chunk count `N ≤ 0` and every byte
sequence, `split_into_n_chunks` returns normally with the whole input as
one slice; the `InvalidArgument` validation for non-positive chunk counts
is performed by `send_chunked` (lines 82-85), not by the splitter. -/
theorem split_nonpositive_count_returns_whole (data : List ℕ) (N : ℤ)
    (hN : N ≤ 0) : split_into_n_chunks data N = [data] := by
  rw [split_into_n_chunks, if_pos (by omega : N ≤ 1)]

theorem split_nonpositive_count_returns_whole_witness :
    (0 : ℤ) ≤ 0 ∧ split_into_n_chunks [7, 8] 0 = [[7, 8]] :=
  ⟨le_refl 0, split_nonpositive_count_returns_whole [7, 8] 0 (le_refl 0)⟩

theorem split_into_n_chunks_spec_witness :
    (1 : ℤ) ≤ 2 ∧ ([1, 2, 3, 4, 5] : List ℕ) ≠ [] ∧
    (split_into_n_chunks [1, 2, 3, 4, 5] 2).flatten = [1, 2, 3, 4, 5] :=
  ⟨by decide, by decide,
    (split_into_n_chunks_spec [1, 2, 3, 4, 5] 2 (by decide) (by decide)).2.1⟩

/-- Each slice of the splitting loop has size `b` or `b + 1`, given the
plan fits in the input. -/
theorem splitGo_mem_length (data : List ℕ) (b r : ℕ) (n i offset : ℕ)
    (h : offset + sizesSumGo b r n i ≤ data.length) :
    ∀ c ∈ splitGo data b r n i offset,
      ∃ j, c.length = b + if j < r then 1 else 0 := by
  intro c hc
  have hcl := List.mem_map_of_mem List.length hc
  rw [splitGo_map_length data b r n i offset h] at hcl
  obtain ⟨j, _, hfj⟩ := List.mem_map.mp hcl
  exact ⟨j, hfj.symm⟩

/-- Under a valid configuration, a drawn count in range, a non-empty
payload and a productive transport, `send_chunked` succeeds: the realized
count is `min cc_drawn L` and the events are the `evTrace` of the fair
chunk plan. -/
theorem send_chunked_ok (so : ℕ → ℤ) (jr : ℕ → ℚ) (cc_drawn : ℤ)
    (data : List ℕ) (minc maxc jit : ℤ) (hpos : ∀ j, 0 < so j)
    (hmin : 1 ≤ minc) (hlo : minc ≤ cc_drawn) (hdata : data ≠ []) :
    send_chunked so jr cc_drawn data minc maxc jit =
      if maxc < minc then .error (.invalidArgument, [])
      else .ok (min cc_drawn (data.length : ℤ),
        evTrace jr jit (min cc_drawn (data.length : ℤ)).toNat 0
          (splitGo data
            (data.length / (min cc_drawn (data.length : ℤ)).toNat)
            (data.length % (min cc_drawn (data.length : ℤ)).toNat)
            (min cc_drawn (data.length : ℤ)).toNat 0 0)) := by
  have hL : 0 < data.length := List.length_pos.mpr hdata
  have hccdef : (if (data.length : ℤ) < cc_drawn then (data.length : ℤ)
      else cc_drawn) = min cc_drawn (data.length : ℤ) := by
    split_ifs <;> omega
  have hccpos : 0 < min cc_drawn (data.length : ℤ) := by omega
  by_cases hmm : maxc < minc
  · rw [if_pos hmm]
    simp only [send_chunked]
    rw [if_neg (by omega : ¬ minc ≤ 0), if_pos hmm]
  · rw [if_neg hmm]
    simp only [send_chunked]
    rw [if_neg (by omega : ¬ minc ≤ 0), if_neg hmm, hccdef,
      if_neg (by omega : ¬ min cc_drawn (data.length : ℤ) = 0),
      chunkLoop_ok so jr data _ _ _ jit hpos]

/-- C4: in the fragmented scenario, for a non-empty payload, a valid
range and any drawn count within it, the delivery succeeds, the realized
chunk count lies in `[min min_chunk L, min max_chunk L]`, the written
chunks concatenate to the payload (so the byte total is `L`), and any two
chunk lengths differ by at most 1. -/
theorem fragmented_scenario_spec (so : ℕ → ℤ) (jr : ℕ → ℚ) (cc_drawn : ℤ)
    (data : List ℕ) (minc maxc jit : ℤ) (hpos : ∀ j, 0 < so j)
    (hmin : 1 ≤ minc) (hmm : minc ≤ maxc) (hlo : minc ≤ cc_drawn)
    (hhi : cc_drawn ≤ maxc) (hdata : data ≠ []) :
    ∃ cc evs, send_chunked so jr cc_drawn data minc maxc jit = .ok (cc, evs) ∧
      min minc (data.length : ℤ) ≤ cc ∧ cc ≤ min maxc (data.length : ℤ) ∧
      (writesOf evs).flatten = data ∧
      ((writesOf evs).map List.length).sum = data.length ∧
      ∀ c1 ∈ writesOf evs, ∀ c2 ∈ writesOf evs,
        c1.length ≤ c2.length + 1 := by
  have hL : 0 < data.length := List.length_pos.mpr hdata
  have hccpos : 0 < min cc_drawn (data.length : ℤ) := by omega
  have hccN : 0 < (min cc_drawn (data.length : ℤ)).toNat := by omega
  have hsum : sizesSumGo
      (data.length / (min cc_drawn (data.length : ℤ)).toNat)
      (data.length % (min cc_drawn (data.length : ℤ)).toNat)
      ((min cc_drawn (data.length : ℤ)).toNat) 0 = data.length :=
    sizesSumGo_div_mod data.length _ hccN
  refine ⟨min cc_drawn (data.length : ℤ),
    evTrace jr jit (min cc_drawn (data.length : ℤ)).toNat 0
      (splitGo data
        (data.length / (min cc_drawn (data.length : ℤ)).toNat)
        (data.length % (min cc_drawn (data.length : ℤ)).toNat)
        (min cc_drawn (data.length : ℤ)).toNat 0 0),
    ?_, by omega, by omega, ?_, ?_, ?_⟩
  · rw [send_chunked_ok so jr cc_drawn data minc maxc jit hpos hmin hlo hdata,
      if_neg (by omega : ¬ maxc < minc)]
  · rw [writesOf_evTrace, splitGo_flatten, hsum]
    simp [List.take_length]
  · rw [writesOf_evTrace, ← List.length_flatten, splitGo_flatten, hsum]
    simp [List.take_length]
  · rw [writesOf_evTrace]
    intro c1 hc1 c2 hc2
    obtain ⟨j1, hj1⟩ := splitGo_mem_length data _ _ _ 0 0 (by omega) c1 hc1
    obtain ⟨j2, hj2⟩ := splitGo_mem_length data _ _ _ 0 0 (by omega) c2 hc2
    rw [hj1, hj2]
    split_ifs <;> omega

theorem fragmented_scenario_spec_witness :
    ∃ cc evs, send_chunked (fun _ => 1) (fun _ => 0) 4 (List.range 37) 3 5 0 =
        .ok (cc, evs) ∧
      min 3 ((List.range 37).length : ℤ) ≤ cc ∧
      cc ≤ min 5 ((List.range 37).length : ℤ) ∧
      (writesOf evs).flatten = List.range 37 ∧
      ((writesOf evs).map List.length).sum = (List.range 37).length ∧
      ∀ c1 ∈ writesOf evs, ∀ c2 ∈ writesOf evs,
        c1.length ≤ c2.length + 1 :=
  fragmented_scenario_spec (fun _ => 1) (fun _ => 0) 4 (List.range 37) 3 5 0
    (fun _ => by norm_num) (by norm_num) (by norm_num) (by norm_num)
    (by norm_num) (by simp)

/-- C8: `send_chunked` reports `InvalidArgument` exactly for
`min_chunk ≤ 0` or `max_chunk < min_chunk`; the validation failure
happens with an empty event trace — before any write reaches the
transport — and does not depend on the transport or random oracles. -/
theorem send_chunked_invalid_argument_spec (so : ℕ → ℤ) (jr : ℕ → ℚ)
    (cc_drawn : ℤ) (data : List ℕ) (minc maxc jit : ℤ) :
    ((∃ evs, send_chunked so jr cc_drawn data minc maxc jit =
        .error (.invalidArgument, evs)) ↔ (minc ≤ 0 ∨ maxc < minc)) ∧
    ((minc ≤ 0 ∨ maxc < minc) →
      send_chunked so jr cc_drawn data minc maxc jit =
        .error (.invalidArgument, [])) := by
  have hbad : (minc ≤ 0 ∨ maxc < minc) →
      send_chunked so jr cc_drawn data minc maxc jit =
        .error (.invalidArgument, []) := by
    intro hvc
    by_cases h0 : minc ≤ 0
    · simp only [send_chunked]
      rw [if_pos h0]
    · rcases hvc with h | h
      · exact absurd h h0
      · simp only [send_chunked]
        rw [if_neg h0, if_pos h]
  refine ⟨⟨?_, fun hvc => ⟨[], hbad hvc⟩⟩, hbad⟩
  rintro ⟨evs, hevs⟩
  by_contra hvc
  push_neg at hvc
  obtain ⟨h1, h2⟩ := hvc
  simp only [send_chunked] at hevs
  rw [if_neg (by omega : ¬ minc ≤ 0), if_neg (by omega : ¬ maxc < minc)]
    at hevs
  by_cases hcc : (if (data.length : ℤ) < cc_drawn then (data.length : ℤ)
      else cc_drawn) = 0
  · rw [if_pos hcc] at hevs
    simp at hevs
  · rw [if_neg hcc] at hevs
    cases hcl : chunkLoop so jr data
        (data.length / (if (data.length : ℤ) < cc_drawn then (data.length : ℤ)
          else cc_drawn).toNat)
        (data.length % (if (data.length : ℤ) < cc_drawn then (data.length : ℤ)
          else cc_drawn).toNat)
        (if (data.length : ℤ) < cc_drawn then (data.length : ℤ)
          else cc_drawn).toNat jit
        (if (data.length : ℤ) < cc_drawn then (data.length : ℤ)
          else cc_drawn).toNat 0 0 0 with
    | error e3 =>
      have htr := (chunkLoop_error_struct so jr data _ _ _ jit _ 0 0 0
        e3.1 e3.2 (by rw [hcl])).1
      simp only [hcl, Except.error.injEq] at hevs
      rw [hevs] at htr
      simp at htr
    | ok evs2 =>
      simp only [hcl] at hevs
      exact Except.noConfusion hevs

theorem send_chunked_invalid_argument_spec_witness :
    send_chunked (fun _ => 1) (fun _ => 0) 1 [1] 0 5 0 =
      .error (.invalidArgument, []) :=
  (send_chunked_invalid_argument_spec (fun _ => 1) (fun _ => 0) 1 [1] 0 5 0).2
    (Or.inl (le_refl 0))

/-- C9: in `send_chunked` a jitter sleep follows chunk `i` iff the bound
is positive and `i` is not the final chunk — the sleeps of a successful
delivery are exactly `jr 0, …, jr (cc - 2)` when `jitter_ms > 0` and
absent otherwise, the trace never ends in a sleep, and every recorded
duration is the drawn value, hence within `[0, jitter_ms / 1000]` seconds
whenever the random source respects that range. -/
theorem jitter_sleep_spec (so : ℕ → ℤ) (jr : ℕ → ℚ) (cc_drawn : ℤ)
    (data : List ℕ) (minc maxc jit : ℤ) (hpos : ∀ j, 0 < so j)
    (hmin : 1 ≤ minc) (hmm : minc ≤ maxc) (hlo : minc ≤ cc_drawn)
    (hhi : cc_drawn ≤ maxc) (hdata : data ≠ []) :
    ∃ cc evs, send_chunked so jr cc_drawn data minc maxc jit = .ok (cc, evs) ∧
      sleepsOf evs =
        (if 0 < jit then (List.range' 0 (cc.toNat - 1)).map jr else []) ∧
      (∃ l c, evs = l ++ [Ev.write c]) ∧
      ((∀ i, 0 ≤ jr i ∧ jr i ≤ (jit : ℚ) / 1000) →
        ∀ d ∈ sleepsOf evs, 0 ≤ d ∧ d ≤ (jit : ℚ) / 1000) := by
  have hL : 0 < data.length := List.length_pos.mpr hdata
  have hccpos : 0 < min cc_drawn (data.length : ℤ) := by omega
  have hlen : (splitGo data
      (data.length / (min cc_drawn (data.length : ℤ)).toNat)
      (data.length % (min cc_drawn (data.length : ℤ)).toNat)
      ((min cc_drawn (data.length : ℤ)).toNat) 0 0).length =
      (min cc_drawn (data.length : ℤ)).toNat := splitGo_length data _ _ _ 0 0
  have hcons : 0 + (splitGo data
      (data.length / (min cc_drawn (data.length : ℤ)).toNat)
      (data.length % (min cc_drawn (data.length : ℤ)).toNat)
      ((min cc_drawn (data.length : ℤ)).toNat) 0 0).length =
      (min cc_drawn (data.length : ℤ)).toNat := by omega
  have hsl := sleepsOf_evTrace jr jit ((min cc_drawn (data.length : ℤ)).toNat)
    (splitGo data
      (data.length / (min cc_drawn (data.length : ℤ)).toNat)
      (data.length % (min cc_drawn (data.length : ℤ)).toNat)
      ((min cc_drawn (data.length : ℤ)).toNat) 0 0) 0 hcons
  rw [hlen] at hsl
  refine ⟨min cc_drawn (data.length : ℤ),
    evTrace jr jit (min cc_drawn (data.length : ℤ)).toNat 0
      (splitGo data
        (data.length / (min cc_drawn (data.length : ℤ)).toNat)
        (data.length % (min cc_drawn (data.length : ℤ)).toNat)
        (min cc_drawn (data.length : ℤ)).toNat 0 0),
    ?_, hsl, ?_, ?_⟩
  · rw [send_chunked_ok so jr cc_drawn data minc maxc jit hpos hmin hlo hdata,
      if_neg (by omega : ¬ maxc < minc)]
  · refine evTrace_ends_write jr jit _ _ 0 hcons ?_
    intro hnil
    rw [hnil] at hlen
    simp at hlen
    omega
  · intro hjr d hd
    rw [hsl] at hd
    by_cases hj : 0 < jit
    · rw [if_pos hj] at hd
      obtain ⟨i, _, hi⟩ := List.mem_map.mp hd
      exact hi ▸ hjr i
    · rw [if_neg hj] at hd
      simp at hd

theorem jitter_sleep_spec_witness :
    ∃ cc evs, send_chunked (fun _ => 1) (fun _ => 0) 2 [1, 2, 3] 1 3 5 =
        .ok (cc, evs) ∧
      sleepsOf evs =
        (if 0 < (5 : ℤ) then
          (List.range' 0 (cc.toNat - 1)).map (fun _ : ℕ => (0 : ℚ)) else []) ∧
      (∃ l c, evs = l ++ [Ev.write c]) ∧
      ((∀ i : ℕ, 0 ≤ (0 : ℚ) ∧ (0 : ℚ) ≤ ((5 : ℤ) : ℚ) / 1000) →
        ∀ d ∈ sleepsOf evs, 0 ≤ d ∧ d ≤ ((5 : ℤ) : ℚ) / 1000) :=
  jitter_sleep_spec (fun _ => 1) (fun _ => 0) 2 [1, 2, 3] 1 3 5
    (fun _ => by norm_num) (by norm_num) (by norm_num) (by norm_num)
    (by norm_num) (by simp)

/-- C10: with a valid configuration and a drawn count in range,
`send_chunked` terminates normally for every non-empty payload — the
capped chunk count lands in `[1, L]`, guarding the divisions — while for
the empty payload the cap forces a chunk count of zero and
`length // chunk_count` raises an unhandled `ZeroDivisionError` before
any bytes are written (the error trace is empty). -/
theorem send_chunked_empty_payload_spec (so : ℕ → ℤ) (jr : ℕ → ℚ)
    (cc_drawn : ℤ) (data : List ℕ) (minc maxc jit : ℤ)
    (hpos : ∀ j, 0 < so j) (hmin : 1 ≤ minc) (hmm : minc ≤ maxc)
    (hlo : minc ≤ cc_drawn) (hhi : cc_drawn ≤ maxc) :
    (data ≠ [] → ∃ cc evs,
      send_chunked so jr cc_drawn data minc maxc jit = .ok (cc, evs) ∧
        1 ≤ cc ∧ cc ≤ (data.length : ℤ)) ∧
    (data = [] → send_chunked so jr cc_drawn data minc maxc jit =
      .error (.zeroDivision, [])) := by
  constructor
  · intro hdata
    have hL : 0 < data.length := List.length_pos.mpr hdata
    refine ⟨min cc_drawn (data.length : ℤ),
      evTrace jr jit (min cc_drawn (data.length : ℤ)).toNat 0
        (splitGo data
          (data.length / (min cc_drawn (data.length : ℤ)).toNat)
          (data.length % (min cc_drawn (data.length : ℤ)).toNat)
          (min cc_drawn (data.length : ℤ)).toNat 0 0),
      ?_, by omega, by omega⟩
    rw [send_chunked_ok so jr cc_drawn data minc maxc jit hpos hmin hlo hdata,
      if_neg (by omega : ¬ maxc < minc)]
  · intro h
    subst h
    simp only [send_chunked, List.length_nil, Nat.cast_zero]
    rw [if_neg (by omega : ¬ minc ≤ 0), if_neg (by omega : ¬ maxc < minc),
      if_pos (by omega : (0 : ℤ) < cc_drawn), if_pos rfl]

theorem send_chunked_empty_payload_spec_witness :
    send_chunked (fun _ => 1) (fun _ => 0) 1 [] 1 1 0 =
        .error (.zeroDivision, []) ∧
    ∃ cc evs, send_chunked (fun _ => 1) (fun _ => 0) 1 [9] 1 1 0 =
        .ok (cc, evs) ∧ 1 ≤ cc ∧ cc ≤ (([9] : List ℕ).length : ℤ) :=
  ⟨(send_chunked_empty_payload_spec (fun _ => 1) (fun _ => 0) 1 [] 1 1 0
      (fun _ => by norm_num) (by norm_num) (by norm_num) (by norm_num)
      (by norm_num)).2 rfl,
    (send_chunked_empty_payload_spec (fun _ => 1) (fun _ => 0) 1 [9] 1 1 0
      (fun _ => by norm_num) (by norm_num) (by norm_num) (by norm_num)
      (by norm_num)).1 (by simp)⟩

/-- C6: the `AtomicFrame` case (key `"1"`, lines 138-142) performs exactly
one chunk write covering the whole encoded message and returns
`seq_no + 1`. -/
theorem atomic_scenario_spec (enc : ℤ → ℤ → List ℕ) (so : ℕ → ℤ)
    (jr : ℕ → ℚ) (cut_rand : ℕ) (cc_drawn seq_no res minc maxc jit : ℤ)
    (hpos : ∀ j, 0 < so j) :
    send_case_once enc so jr cut_rand cc_drawn "1" seq_no res minc maxc jit =
      .ok (seq_no + 1, [Ev.write (enc seq_no res)]) := by
  obtain ⟨k', hk'⟩ := send_all_ok_pos so hpos 0 (enc seq_no res).length
  simp only [send_case_once]
  rw [hk']
  simp

theorem atomic_scenario_spec_witness :
    send_case_once (fun _ _ => [3, 4]) (fun _ => 1) (fun _ => 0) 1 1 "1"
        7 0 1 1 0 = .ok (8, [Ev.write [3, 4]]) := by
  simpa using atomic_scenario_spec (fun _ _ => [3, 4]) (fun _ => 1)
    (fun _ => 0) 1 1 7 0 1 1 0 (fun _ => by norm_num)

/-- C5: the `CoalescedFrames` case (key `"4"`, lines 164-173) performs
exactly one chunk write whose content is the concatenation of the two
independently encoded messages at `seq_no` and `seq_no + 1`, and returns
`seq_no + 2`. -/
theorem coalesced_scenario_spec (enc : ℤ → ℤ → List ℕ) (so : ℕ → ℤ)
    (jr : ℕ → ℚ) (cut_rand : ℕ) (cc_drawn seq_no res minc maxc jit : ℤ)
    (hpos : ∀ j, 0 < so j) :
    send_case_once enc so jr cut_rand cc_drawn "4" seq_no res minc maxc jit =
      .ok (seq_no + 2,
        [Ev.write (enc seq_no res ++ enc (seq_no + 1) res)]) := by
  obtain ⟨k', hk'⟩ := send_all_ok_pos so hpos 0
    (enc seq_no res ++ enc (seq_no + 1) res).length
  simp only [send_case_once]
  rw [hk']
  simp

theorem coalesced_scenario_spec_witness :
    send_case_once (fun s _ => [s.toNat]) (fun _ => 1) (fun _ => 0) 1 1 "4"
        5 0 1 1 0 = .ok (7, [Ev.write [5, 6]]) := by
  simpa using coalesced_scenario_spec (fun s _ => [s.toNat]) (fun _ => 1)
    (fun _ => 0) 1 1 5 0 1 1 0 (fun _ => by norm_num)

/-- C3 counterexample: for an encoded payload of length `L = 1` and a
withholding draw of `1` the `IncompleteFrame` case writes
`cut = max(1, 1 - 1) = 1` byte — the whole payload — so the claimed bound
`bytes_written ≤ L - 1` fails: nothing is withheld. -/
theorem incomplete_withhold_counterexample :
    send_case_once (fun _ _ => [0]) (fun _ => 1) (fun _ => 0) 1 1 "3"
        0 0 1 1 0 = .ok (1, [Ev.write [0]]) ∧
    ¬ (([0] : List ℕ).length ≤ ([0] : List ℕ).length - 1) :=
  ⟨rfl, by decide⟩

/-- C3 amended: in the `IncompleteFrame` case (key `"3"`, lines 153-162),
for any withholding draw `1 ≤ cut_rand ≤ 12` and a non-empty encoded
payload of length `L`, the single chunk written has exactly
`cut = max(1, L - cut_rand)` bytes and the counter advances by 1; at
least one byte is always sent, and at least one byte is withheld
(`bytes_written ≤ L - 1`) whenever `L ≥ 2` — for `L = 1` the whole
payload is sent. -/
theorem incomplete_scenario_spec (enc : ℤ → ℤ → List ℕ) (so : ℕ → ℤ)
    (jr : ℕ → ℚ) (cut_rand : ℕ) (cc_drawn seq_no res minc maxc jit : ℤ)
    (hpos : ∀ j, 0 < so j) (hc1 : 1 ≤ cut_rand) (hc12 : cut_rand ≤ 12)
    (hL : 1 ≤ (enc seq_no res).length) :
    send_case_once enc so jr cut_rand cc_drawn "3" seq_no res minc maxc jit =
      .ok (seq_no + 1, [Ev.write ((enc seq_no res).take
        (max 1 ((enc seq_no res).length - cut_rand)))]) ∧
    ((enc seq_no res).take
        (max 1 ((enc seq_no res).length - cut_rand))).length =
      max 1 ((enc seq_no res).length - cut_rand) ∧
    1 ≤ ((enc seq_no res).take
        (max 1 ((enc seq_no res).length - cut_rand))).length ∧
    (2 ≤ (enc seq_no res).length →
      ((enc seq_no res).take
          (max 1 ((enc seq_no res).length - cut_rand))).length ≤
        (enc seq_no res).length - 1) := by
  have hlen : ((enc seq_no res).take
      (max 1 ((enc seq_no res).length - cut_rand))).length =
      max 1 ((enc seq_no res).length - cut_rand) := by
    rw [List.length_take]
    omega
  refine ⟨?_, hlen, by rw [hlen]; omega, by intro h2; rw [hlen]; omega⟩
  obtain ⟨k', hk'⟩ := send_all_ok_pos so hpos 0
    ((enc seq_no res).take
      (max 1 ((enc seq_no res).length - cut_rand))).length
  simp only [send_case_once]
  rw [hk']
  simp

theorem incomplete_scenario_spec_witness :
    send_case_once (fun _ _ => [9, 9, 9, 9, 9]) (fun _ => 1) (fun _ => 0)
        3 1 "3" 0 0 1 1 0 =
      .ok (0 + 1, [Ev.write (([9, 9, 9, 9, 9] : List ℕ).take
        (max 1 (([9, 9, 9, 9, 9] : List ℕ).length - 3)))]) ∧
    (([9, 9, 9, 9, 9] : List ℕ).take
        (max 1 (([9, 9, 9, 9, 9] : List ℕ).length - 3))).length =
      max 1 (([9, 9, 9, 9, 9] : List ℕ).length - 3) ∧
    1 ≤ (([9, 9, 9, 9, 9] : List ℕ).take
        (max 1 (([9, 9, 9, 9, 9] : List ℕ).length - 3))).length ∧
    (2 ≤ ([9, 9, 9, 9, 9] : List ℕ).length →
      (([9, 9, 9, 9, 9] : List ℕ).take
          (max 1 (([9, 9, 9, 9, 9] : List ℕ).length - 3))).length ≤
        ([9, 9, 9, 9, 9] : List ℕ).length - 1) :=
  incomplete_scenario_spec (fun _ _ => [9, 9, 9, 9, 9]) (fun _ => 1)
    (fun _ => 0) 3 1 0 0 1 1 0 (fun _ => by norm_num) (by norm_num)
    (by norm_num) (by norm_num)

/-- C7: a hand-off reporting zero or negative accepted bytes makes
`send_all` fail having transmitted strictly less than the current chunk,
and makes the chunk loop fail with a `TransportError` whose trace is the
complete chunks before the failing one followed by a strict prefix of the
failing chunk — the remaining chunks of the plan are never attempted;
conversely, when every hand-off reports a positive count, `send_all`
writes exactly the whole chunk. -/
theorem transport_failure_spec (so : ℕ → ℤ) (L k : ℕ) :
    ((∀ j, 0 < so j) → ∃ k', send_all so k 0 0 L = .ok (k', L)) ∧
    (∀ kf w, send_all so k 0 0 L = .error (kf, w) → so kf ≤ 0 ∧ w < L) ∧
    (∀ (jr : ℕ → ℚ) (data : List ℕ) (b r cc : ℕ) (jit : ℤ)
      (n i offset : ℕ) (e : PubError) (evs : List Ev),
      chunkLoop so jr data b r cc jit n i k offset = .error (e, evs) →
        e = PubError.transportError ∧
        ∃ pre full rest w,
          splitGo data b r n i offset = pre ++ full :: rest ∧
          writesOf evs = pre ++ [full.take w] ∧ w < full.length) :=
  ⟨fun hpos => send_all_ok_pos so hpos k L,
    fun kf w h => send_all_error_facts so k L kf w h,
    fun jr data b r cc jit n i offset e evs h =>
      chunkLoop_error_struct so jr data b r cc jit n i k offset e evs h⟩

theorem transport_failure_spec_witness :
    (∃ k', send_all (fun _ => 2) 0 0 0 5 = .ok (k', 5)) ∧
    ((0 : ℤ) ≤ 0 ∧ (0 : ℕ) < 2) ∧
    (PubError.transportError = PubError.transportError ∧
      ∃ pre full rest w,
        splitGo [1, 2, 3, 4] 2 0 2 0 0 = pre ++ full :: rest ∧
        writesOf [Ev.write []] = pre ++ [full.take w] ∧ w < full.length) :=
  ⟨(transport_failure_spec (fun _ => 2) 5 0).1 (fun _ => by norm_num),
    (transport_failure_spec (fun _ => 0) 2 0).2.1 0 0 rfl,
    (transport_failure_spec (fun _ => 0) 2 0).2.2 (fun _ => 0) [1, 2, 3, 4]
      2 0 2 0 2 0 0 PubError.transportError [Ev.write []] rfl⟩

end TabletPublisher
